import Mathlib

/-!
Verification of the maniphono feature-model engine (`maniphono/phonomodel.py`,
class `HumanModel`, plus helpers from `maniphono/common.py`).

Embedding conventions:
* Python strings are `String`; character-level work is done on `String.data`.
* A Python `frozenset` of feature values is embedded as a `List String`;
  every point where the source constructs a `frozenset(...)` is embedded as
  `canon` (deduplicate, then sort), and every point where the source compares
  two frozensets for equality (dictionary lookup keyed by a frozenset) is
  embedded as the set-equality test `setEqB`, so that the embedding does not
  depend on the representation order of a set.  Where the source iterates a
  `frozenset` (an order CPython leaves unspecified) the embedding iterates the
  canonical sorted order; where the source iterates a Python `list`, the
  embedding iterates in the same list order.
* Scores computed with Python floats (`1.0 / rank` sums in `closest_grapheme`)
  are embedded as exact rationals `ℚ`.
* Python code that raises (`ValueError`, `KeyError`, `IndexError`) is embedded
  in `Except String`; the error message is only informative.  Total helpers
  that the source only ever calls on keys that are present (`self.fvalues[v]`)
  are totalized with a default and the theorems carry explicit definedness
  hypotheses (`fvDefinedB` / `fvDefinedRankedB`) so that they only speak about
  the region where the embedding is faithful.
-/

namespace Maniphono

instance {ε α : Type} [DecidableEq ε] [DecidableEq α] : DecidableEq (Except ε α) := by
  intro x y
  cases x <;> cases y
  case error.error a b =>
    exact if h : a = b then Decidable.isTrue (by rw [h])
      else Decidable.isFalse (fun hc => by cases hc; exact h rfl)
  case ok.ok a b =>
    exact if h : a = b then Decidable.isTrue (by rw [h])
      else Decidable.isFalse (fun hc => by cases hc; exact h rfl)
  case error.ok a b => exact Decidable.isFalse (fun hc => by cases hc)
  case ok.error a b => exact Decidable.isFalse (fun hc => by cases hc)

/-! ### character / string helpers

Lean's built-in `String.trim`, `String.replace` and the `String` order are
implemented on iterators and do not reduce inside the kernel, so the embedding
re-implements them on `String.data` (lists of characters).  The string order
used for the canonical listing of a frozenset is plain codepoint-lexicographic
order, the same relation as Python's `<` on `str` (the canonical listing only
has to be *some* fixed enumeration of the set, see `canon` below). -/

/-- Python `str.strip()` whitespace (ASCII part; the embedding does not model
exotic Unicode whitespace). -/
def isPySpace (c : Char) : Bool :=
  c = ' ' || c = '\t' || c = '\n' || c = '\r' || c = '\x0b' || c = '\x0c'

/-- Strip leading and trailing whitespace from a character list. -/
def trimChars (l : List Char) : List Char :=
  ((l.dropWhile isPySpace).reverse.dropWhile isPySpace).reverse

/-- `str.strip()` on strings. -/
def stripStr (s : String) : String := String.mk (trimChars s.data)

/-- Codepoint-lexicographic strict order on character lists (the order Python
uses to compare `str` values). -/
def charsLt : List Char → List Char → Bool
  | [], [] => false
  | [], _ :: _ => true
  | _ :: _, [] => false
  | a :: as, b :: bs =>
    if a.val < b.val then true
    else if b.val < a.val then false
    else charsLt as bs

/-- Non-strict codepoint-lexicographic order on strings. -/
def strLe (a b : String) : Bool := !(charsLt b.data a.data)

/-- Leftmost, non-overlapping replacement of `pat` by `rep` (Python
`str.replace`), with explicit fuel (one unit per consumed character, so
`s.length` always suffices). -/
def replaceChars (pat rep : List Char) : Nat → List Char → List Char
  | 0, s => s
  | _ + 1, [] => []
  | fuel + 1, c :: rest =>
    if !pat.isEmpty && pat.isPrefixOf (c :: rest) then
      rep ++ replaceChars pat rep fuel ((c :: rest).drop pat.length)
    else
      c :: replaceChars pat rep fuel rest

/-- Python `str.replace` on strings (for the nonempty patterns the source
uses). -/
def replaceStr (s pat rep : String) : String :=
  String.mk (replaceChars pat.data rep.data s.data.length s.data)

/-- Split a character list on runs of whitespace, dropping empty pieces
(Python `str.split()` with no argument). -/
def splitWsAux : List Char → List Char → List (List Char)
  | [], acc => if acc.isEmpty then [] else [acc.reverse]
  | c :: rest, acc =>
    if isPySpace c then
      if acc.isEmpty then splitWsAux rest [] else acc.reverse :: splitWsAux rest []
    else splitWsAux rest (c :: acc)

/-- Whitespace tokenization of a string. -/
def splitWs (s : String) : List String := ((splitWsAux s.data []).map String.mk)

/-- Kind of a single constraint entry (`constr["type"]` in the source:
the strings "presence" / "absence"). -/
inductive ConstrType where
  | presence : ConstrType
  | absence : ConstrType
deriving DecidableEq, Repr

/-- One constraint entry, `{"type": ..., "fvalue": ...}` in
`common.parse_constraints`. -/
structure Constr where
  ctype : ConstrType
  fvalue : String
deriving DecidableEq, Repr

/-- The per-value record stored in `PhonoModel.fvalues[fvalue]`:
feature name, rank, prefix diacritic (`pre`), suffix diacritic (`suf`) and the
parsed constraint expression (a list of OR-groups, combined as AND). -/
structure FvalueInfo where
  feature : String
  rank : Nat
  pre : String
  suf : String
  constraints : List (List Constr)
deriving DecidableEq, Repr

/-- The loaded `HumanModel` state:
`fvalues` embeds the insertion-ordered dict `self.fvalues`;
`graphemes` embeds the insertion-ordered dict `self._grapheme2fvalues`
(and, read backwards, `self._fvalues2grapheme`, which shares its insertion
order); `sndClasses` embeds `self._snd_classes`; `diacritics` embeds the
insertion-ordered dict `self._diacritics`. -/
structure PhModel where
  fvalues : List (String × FvalueInfo)
  graphemes : List (String × List String)
  sndClasses : List String
  diacritics : List (String × String)

/-! ### frozenset embedding helpers -/

/-- Insert a string into a (sorted) list, keeping `strLe`-order. -/
def insertSorted (x : String) : List String → List String
  | [] => [x]
  | y :: ys => if strLe x y then x :: y :: ys else y :: insertSorted x ys

/-- Insertion sort for lists of strings (ascending). -/
def sortStrings (l : List String) : List String := l.foldr insertSorted []

/-- Canonical list form of a Python `frozenset` built from the elements of
`l`: duplicates removed, ascending order.  Every `frozenset(...)` constructor
in the source is embedded as `canon`. -/
def canon (l : List String) : List String := sortStrings l.dedup

/-- Set-equality of two element lists: how two Python `frozenset`s compare
equal (used for lookups in dictionaries keyed by frozensets). -/
def setEqB (a b : List String) : Bool :=
  a.all (fun x => b.contains x) && b.all (fun x => a.contains x)

/-! ### model lookups -/

/-- `self.fvalues[fv]` as an `Option` (the source raises `KeyError` when the
value is undefined). -/
def lookupFv (m : PhModel) (fv : String) : Option FvalueInfo :=
  m.fvalues.lookup fv

/-- The constraint expression attached to a value; `[]` for an undefined value
(the source would raise `KeyError` there — theorems that quantify over feature
sets carry a definedness hypothesis instead). -/
def constraintsOf (m : PhModel) (fv : String) : List (List Constr) :=
  match lookupFv m fv with
  | some info => info.constraints
  | none => []

/-- `self.features[feat]` (a `defaultdict(set)`): the names of all values
declared for feature `feat`, in model order; empty for an unknown feature. -/
def featureFvalues (m : PhModel) (feat : String) : List String :=
  (m.fvalues.filter (fun p => p.2.feature == feat)).map (fun p => p.1)

/-- Boolean guard used in theorem hypotheses: `fv` is a defined value. -/
def fvDefinedB (m : PhModel) (fv : String) : Bool :=
  (lookupFv m fv).isSome

/-- Boolean guard used in theorem hypotheses: `fv` is a defined value whose
rank is at least 1 (the loader rejects rank < 1). -/
def fvDefinedRankedB (m : PhModel) (fv : String) : Bool :=
  match lookupFv m fv with
  | some info => decide (1 ≤ info.rank)
  | none => false

/-! ### constraint evaluator (`HumanModel.fail_constraints`) -/

/-- One constraint group is satisfied when at least one entry evaluates true:
a `presence` entry when the referenced value is in the set, an `absence` entry
when it is not (`any(offense)` in the source). -/
def groupSatisfied (fvalues : List String) (group : List Constr) : Bool :=
  group.any (fun c =>
    match c.ctype with
    | ConstrType.presence => fvalues.contains c.fvalue
    | ConstrType.absence => !(fvalues.contains c.fvalue))

/-- `HumanModel.fail_constraints`: for every value present (in iteration
order), for every constraint group attached to it, append the value once when
the group is unsatisfied; returns the list of offending values (empty when all
pass). -/
def fail_constraints (m : PhModel) (fvalues : List String) : List String :=
  fvalues.flatMap (fun fv =>
    (constraintsOf m fv).filterMap (fun group =>
      if groupSatisfied fvalues group then none else some fv))

/-! ### `common.parse_fvalues` (string case) -/

/-- `common.parse_fvalues` on a string: replace the delimiters `" and "`,
`","`, `";"`, `"/"` by spaces, tokenize on whitespace, and build a frozenset
(embedded as the canonical list of the distinct tokens). -/
def parse_fvalues (s : String) : List String :=
  let s1 := replaceStr (replaceStr (replaceStr (replaceStr s " and " " ") "," " ") ";" " ") "/" " "
  canon (splitWs s1)

/-! ### value substitution (`HumanModel.set_fvalue`)

`set_fvalue` mirrors the source:
* already-present fast path: a plain `new_fvalue` already in the set, or a
  `+`-prefixed one whose bare form is already in the set, is returned
  unchanged (and reported as the replaced value) without any constraint
  check;
* a `-`-prefixed value removes the bare value when present (tolerantly);
* otherwise the feature of the (bare) new value is looked up (`KeyError`,
  i.e. `.error`, when undefined), the first value of the same feature in
  list order becomes the replaced value and is removed, and the new value is
  prepended;
* when `check` is true the constraint evaluator runs on the result and an
  error is raised when it reports any offending value;
* the result is wrapped in a frozenset (`canon`) exactly where the source
  calls `frozenset(...)`; the fast paths return the input collection as is.

An empty `new_fvalue` is an error (the source would raise `IndexError` on
`new_fvalue[0]`). -/

/-- The removal / substitution core of `set_fvalue` (the part of the source
between the fast paths and the constraint check), for a first character `c`
and remaining characters `rest` of the new value:
* `c = '-'`: remove the bare value when present (tolerantly), reporting it;
* otherwise look up the feature of the bare value (`KeyError`, i.e. error,
  when undefined), find the first value of the same feature in list order as
  the replaced value, remove it and prepend the bare value. -/
def set_fvalue_core (m : PhModel) (fvalues : List String) (c : Char) (rest : List Char)
    (newFv : String) : Except String (List String × Option String) :=
  if c = '-' then
    if fvalues.contains (String.mk rest) then
      Except.ok (fvalues.filter (fun fv => fv ≠ String.mk rest), some (String.mk rest))
    else Except.ok (fvalues, none)
  else
    match lookupFv m (if c = '+' then String.mk rest else newFv) with
    | none => Except.error ("undefined fvalue " ++ (if c = '+' then String.mk rest else newFv))
    | some info =>
      match fvalues.find? (fun fv => (featureFvalues m info.feature).contains fv) with
      | some prev =>
        Except.ok ((if c = '+' then String.mk rest else newFv) :: fvalues.filter (fun fv => fv ≠ prev),
          some prev)
      | none => Except.ok ((if c = '+' then String.mk rest else newFv) :: fvalues, none)

/-- `set_fvalue` for a new value with first character `c` and remaining
characters `rest`: the two already-present fast paths (which return without
any constraint check), then the core substitution, then the optional
constraint check, and finally the frozenset (`canon`) wrap of the result. -/
def set_fvalue_chars (m : PhModel) (fvalues : List String) (c : Char) (rest : List Char)
    (newFv : String) (check : Bool) : Except String (List String × Option String) :=
  if c ≠ '+' ∧ c ≠ '-' ∧ fvalues.contains newFv then Except.ok (fvalues, some newFv)
  else if c = '+' ∧ fvalues.contains (String.mk rest) then
    Except.ok (fvalues, some (String.mk rest))
  else
    match set_fvalue_core m fvalues c rest newFv with
    | Except.error e => Except.error e
    | Except.ok (nfv, prev) =>
      if check && !(fail_constraints m nfv).isEmpty then
        Except.error ("FValue " ++ newFv ++ " breaks a constraint")
      else Except.ok (canon nfv, prev)

def set_fvalue (m : PhModel) (fvalues : List String) (newFv : String) (check : Bool) :
    Except String (List String × Option String) :=
  match newFv.data with
  | [] => Except.error "empty fvalue name"
  | c :: rest => set_fvalue_chars m fvalues c rest newFv check

/-! ### sorting and feature dictionaries -/

/-- Insertion sort by an arbitrary boolean comparison (stable, like Python
`sorted`). -/
def insertSortedBy (le : String → String → Bool) (x : String) : List String → List String
  | [] => [x]
  | y :: ys => if le x y then x :: y :: ys else y :: insertSortedBy le x ys

/-- Stable sort by an arbitrary boolean comparison. -/
def sortStringsBy (le : String → String → Bool) (l : List String) : List String :=
  l.foldr (insertSortedBy le) []

/-- Rank of a value (0 for an undefined value; the source would raise
`KeyError` there). -/
def rankOf (m : PhModel) (fv : String) : Nat :=
  match lookupFv m fv with
  | some info => info.rank
  | none => 0

/-- `HumanModel.sort_fvalues`: frozenset the input, then sort by descending
rank with alphabetical tie-break (`key = (-rank, v)`), or plain alphabetically
when `useRank` is false. -/
def sort_fvalues (m : PhModel) (fvalues : List String) (useRank : Bool) : List String :=
  let fs := canon fvalues
  if useRank then
    sortStringsBy (fun a b =>
      rankOf m b < rankOf m a || (rankOf m a = rankOf m b && strLe a b)) fs
  else sortStrings fs

/-- Python dict assignment `d[k] = v` on an insertion-ordered association
list: overwrite in place when the key exists, append otherwise. -/
def dictInsert (l : List (String × String)) (k v : String) : List (String × String) :=
  if l.any (fun p => p.1 == k) then l.map (fun p => if p.1 == k then (k, v) else p)
  else l ++ [(k, v)]

/-- `HumanModel.feature_dict`: the feature → value dictionary of a feature
set (iterating the set in canonical order; for a resolved set there is at
most one value per feature, so the iteration order is immaterial). -/
def feature_dict (m : PhModel) (fvalues : List String) : List (String × String) :=
  (canon fvalues).foldl (fun acc fv =>
    match lookupFv m fv with
    | some info => dictInsert acc info.feature fv
    | none => dictInsert acc "" fv) []

/-! ### nearest match (`HumanModel.closest_grapheme`) -/

/-- `1.0 / rank` as an exact rational (0 for an undefined value; the source
would raise `KeyError` there). -/
def invRank (m : PhModel) (fv : String) : ℚ :=
  match lookupFv m fv with
  | some info => 1 / (info.rank : ℚ)
  | none => 0

/-- Candidate score in `closest_grapheme`: Σ 1/rank over the values shared
with the target minus Σ 1/rank over the values of the candidate absent from
the target (`score_common - score_extra`). -/
def scoreOf (m : PhModel) (fvalues cand : List String) : ℚ :=
  ((fvalues.filter (fun fv => cand.contains fv)).map (invRank m)).sum
    - ((cand.filter (fun fv => !(fvalues.contains fv))).map (invRank m)).sum

/-- One iteration of the `closest_grapheme` search loop over
`self._fvalues2grapheme.items()`: skip sound classes when `classes` is false,
otherwise keep the candidate only when its score is strictly greater than the
running best.  State: (best score — initialized to 0 —, best grapheme, best
feature set). -/
def closestStep (m : PhModel) (fvalues : List String) (classes : Bool)
    (st : ℚ × Option String × Option (List String)) (p : String × List String) :
    ℚ × Option String × Option (List String) :=
  if !classes && m.sndClasses.contains p.1 then st
  else if st.1 < scoreOf m fvalues p.2 then (scoreOf m fvalues p.2, some p.1, some p.2)
  else st

/-- The final state of the `closest_grapheme` search loop over
`self._fvalues2grapheme.items()` (insertion order of the inventory), starting
from best score 0 and no best candidate. -/
def searchState (m : PhModel) (fvalues : List String) (classes : Bool) :
    ℚ × Option String × Option (List String) :=
  m.graphemes.foldl (closestStep m fvalues classes) (0, none, none)

/-- The `closest_grapheme` search loop result: best grapheme and its feature
set (`None, None` when no candidate ever had a score strictly above 0). -/
def closestSearch (m : PhModel) (fvalues : List String) (classes : Bool) :
    Option String × Option (List String) :=
  ((searchState m fvalues classes).2.1, (searchState m fvalues classes).2.2)

/-- `self._fvalues2grapheme.get(fvalues)`: the grapheme of the first
inventory entry whose feature set equals `fs` as a set. -/
def fvalues2grapheme (m : PhModel) (fs : List String) : Option String :=
  (m.graphemes.find? (fun p => setEqB p.2 fs)).map (fun p => p.1)

/-- `HumanModel.closest_grapheme source classes`.  The source first round
trips `source` through `_parse_sound_group` (a frozenset construction,
embedded as `canon`).  If the target is itself a canonical feature set, the
raw match is returned unless `classes` is true *and* the matched grapheme is
a sound class (`if not all([classes, grapheme in self._snd_classes])`);
otherwise the scoring loop runs. -/
def closest_grapheme (m : PhModel) (source : List String) (classes : Bool) :
    Option String × Option (List String) :=
  match fvalues2grapheme m (canon source) with
  | some g =>
    if classes && m.sndClasses.contains g then closestSearch m (canon source) classes
    else (some g, some (canon source))
  | none => closestSearch m (canon source) classes

/-! ### grapheme decoding (`HumanModel.parse_grapheme`) -/

/-- `common.match_initial` on character lists: among the nonempty candidates
that are a prefix of `s`, take a longest one (the source sorts candidates by
descending length and takes the first prefix match; two distinct prefixes of
the same string with the same length are equal, so taking the first longest
match is the same function) and return the rest of the string together with
the match. -/
def match_initial (s : List Char) (cands : List (List Char)) :
    List Char × Option (List Char) :=
  let best := cands.foldl (fun acc c =>
    if !c.isEmpty && c.isPrefixOf s then
      match acc with
      | none => some c
      | some b => if b.length < c.length then some c else acc
    else acc) none
  match best with
  | some c => (s.drop c.length, some c)
  | none => (s, none)

/-- The diacritic-stripping `while grapheme:` loop of `parse_grapheme`, with
explicit fuel (each iteration consumes at least one character, so the length
of the remaining text always suffices): strip the longest diacritic prefix
and push its value onto the *front* of the modifier list, or move one
non-diacritic character to the accumulated base grapheme. -/
def stripLoop (m : PhModel) : Nat → List Char → List Char → List String →
    List Char × List String
  | 0, _, base, mods => (base, mods)
  | _ + 1, [], base, mods => (base, mods)
  | fuel + 1, c :: rest, base, mods =>
    match match_initial (c :: rest) (m.diacritics.map (fun p => p.1.data)) with
    | (g2, some d) =>
      stripLoop m fuel g2 base (((m.diacritics.lookup (String.mk d)).getD "") :: mods)
    | (_, none) => stripLoop m fuel rest (base ++ [c]) mods

/-- Apply the modifier list in order through `set_fvalue` with the constraint
check disabled (`for mod in modifiers: fvalues, _ = self.set_fvalue(...,
check=False)`), propagating errors. -/
def applyMods (m : PhModel) : List String → List String → Except String (List String)
  | fvalues, [] => Except.ok fvalues
  | fvalues, mod :: rest =>
    match set_fvalue m fvalues mod false with
    | Except.error e => Except.error e
    | Except.ok (fv2, _) => applyMods m fv2 rest

/-- `HumanModel.parse_grapheme`.

* Exact-match fast path: a canonical grapheme returns its stored feature set
  and its sound-class flag immediately.
* Otherwise, when the string contains `[` and ends in `]`, the text before
  the first `[` remains to be parsed and the bracket content is tokenized by
  `parse_fvalues`; the source casts the resulting *frozenset* to a list, so
  the written order of the bracket tokens is lost — the embedding lists the
  set in canonical order.
* The remaining text goes through the diacritic-stripping loop; stripped
  values are inserted at the front of the modifier list.
* The accumulated base grapheme must be canonical (`KeyError`, i.e. error,
  otherwise); its feature set seeds the result, the modifiers are applied in
  order without intermediate checks, and a final constraint check runs. -/
def parse_grapheme (m : PhModel) (grapheme : String) :
    Except String (List String × Bool) :=
  match m.graphemes.lookup grapheme with
  | some fs => Except.ok (fs, m.sndClasses.contains grapheme)
  | none =>
    let hasBracket := grapheme.data.contains '[' && grapheme.data.getLast? == some ']'
    let core := if hasBracket then grapheme.data.takeWhile (fun c => c ≠ '[') else grapheme.data
    let mods0 : List String :=
      if hasBracket then
        parse_fvalues (String.mk ((grapheme.data.dropWhile (fun c => c ≠ '[')).tail.dropLast))
      else []
    let (baseChars, mods) := stripLoop m core.length core [] mods0
    match m.graphemes.lookup (String.mk baseChars) with
    | none => Except.error ("unknown base grapheme " ++ String.mk baseChars)
    | some fs0 =>
      match applyMods m fs0 mods with
      | Except.error e => Except.error e
      | Except.ok fvalues =>
        if !(fail_constraints m fvalues).isEmpty then
          Except.error "parsed grapheme fails constraints"
        else Except.ok (fvalues, m.sndClasses.contains (String.mk baseChars))

/-! ### grapheme encoding (`HumanModel.build_grapheme`) -/

/-- `common.normalize`: Unicode NFD normalization followed by `strip()`.
The NFD step depends on the external Unicode data tables, so it is a
parameter `nfd` of the encoder; `strip` is `stripStr`.  (For graphemes made
of characters without canonical decompositions — e.g. ASCII — `nfd = id` is
the true instantiation.) -/
def normalize (nfd : String → String) (s : String) : String := stripStr (nfd s)

/-- `HumanModel.build_grapheme`.

Fast path: the frozenset of the input (`parse_fvalues` in the source, `canon`
here) that equals the feature set of a canonical sound returns that sound's
grapheme (normalized).  Otherwise the nearest match is found, each
disagreeing value (sorted by rank) is applied as a prefix/suffix diacritic
when it has one or collected in an `expression` list otherwise, values of the
candidate whose feature is absent from the target are collected as `-value`,
and a nonempty expression list is appended in brackets, sorted
alphabetically.  A `(None, None)` nearest match (empty or all-nonpositive
scores) is an error (the source would crash iterating `None`). -/
def build_grapheme (nfd : String → String) (m : PhModel) (fvaluesIn : List String) :
    Except String String :=
  match fvalues2grapheme m (canon fvaluesIn) with
  | some g => Except.ok (normalize nfd g)
  | none =>
    match closest_grapheme m (canon fvaluesIn) true with
    | (some g0, some best) =>
      let curr := feature_dict m (canon fvaluesIn)
      let bestD := feature_dict m best
      let modifier := sort_fvalues m
        ((curr.filter (fun p => bestD.lookup p.1 ≠ some p.2)).map (fun p => p.2)) true
      let start : String × List String := (g0, [])
      let step := fun (acc : String × List String) (fv : String) =>
        match lookupFv m fv with
        | some info =>
          if info.pre ≠ "" ∨ info.suf ≠ "" then (info.pre ++ acc.1 ++ info.suf, acc.2)
          else (acc.1, acc.2 ++ [fv])
        | none => (acc.1, acc.2 ++ [fv])
      let wrapped := modifier.foldl step start
      let expression := wrapped.2 ++
        (bestD.filter (fun p => (curr.lookup p.1).isNone)).map (fun p => "-" ++ p.2)
      let g1 :=
        if expression.isEmpty then wrapped.1
        else wrapped.1 ++ "[" ++ String.intercalate "," (sortStrings expression) ++ "]"
      Except.ok (normalize nfd g1)
    | _ => Except.error "no closest grapheme"

/-! ### model loading (`HumanModel._init_model`, feature-table phase) -/

/-- The identifier pattern `^[a-z][-_a-z]*$` (`RE_FEATURE` = `RE_FVALUE`). -/
def validName (s : String) : Bool :=
  match s.data with
  | [] => false
  | c :: rest =>
    ('a' ≤ c && c ≤ 'z') &&
      rest.all (fun d => d = '-' || d = '_' || ('a' ≤ d && d ≤ 'z'))

/-- Hexadecimal digit test for the `U+XXXX` codepoint notation. -/
def isHexDigitB (c : Char) : Bool :=
  ('0' ≤ c && c ≤ '9') || ('a' ≤ c && c ≤ 'f') || ('A' ≤ c && c ≤ 'F')

/-- Value of a hexadecimal digit. -/
def hexVal (c : Char) : Nat :=
  if '0' ≤ c && c ≤ '9' then c.toNat - '0'.toNat
  else if 'a' ≤ c && c ≤ 'f' then c.toNat - 'a'.toNat + 10
  else if 'A' ≤ c && c ≤ 'F' then c.toNat - 'A'.toNat + 10
  else 0

/-- `common.replace_codepoints` scan: each leftmost occurrence of
`[Uu]\+[0-9A-Fa-f]{4}` is replaced by the character it denotes; other
characters are kept. -/
def replaceCodepointsChars : List Char → List Char
  | u :: p :: a :: b :: c :: d :: rest =>
    if (u = 'U' || u = 'u') && p = '+' && [a, b, c, d].all isHexDigitB then
      Char.ofNat (((hexVal a * 16 + hexVal b) * 16 + hexVal c) * 16 + hexVal d)
        :: replaceCodepointsChars rest
    else u :: replaceCodepointsChars (p :: a :: b :: c :: d :: rest)
  | c :: rest => c :: replaceCodepointsChars rest
  | [] => []

/-- `common.replace_codepoints` on strings. -/
def replace_codepoints (s : String) : String := String.mk (replaceCodepointsChars s.data)

/-- Classify one constraint token of `common.parse_constraints`: `-`/`!`
prefixed tokens are absence constraints, optionally-`+`-prefixed tokens are
presence constraints; the (bare) value name must match the identifier
pattern.  An empty token is an error (`IndexError` on `constr[0]`). -/
def parseConstrToken (t : String) : Except String Constr :=
  match t.data with
  | [] => Except.error "empty constraint token"
  | c :: rest =>
    if c = '-' ∨ c = '!' then
      if validName (String.mk rest) then Except.ok ⟨ConstrType.absence, String.mk rest⟩
      else Except.error ("invalid value name " ++ String.mk rest)
    else if c = '+' then
      if validName (String.mk rest) then Except.ok ⟨ConstrType.presence, String.mk rest⟩
      else Except.error ("invalid value name " ++ String.mk rest)
    else
      if validName t then Except.ok ⟨ConstrType.presence, t⟩
      else Except.error ("invalid value name " ++ t)

/-- `common.parse_constraints`: an empty (falsy) source yields no
constraints; otherwise the source is tokenized by `parse_fvalues` (a
frozenset — iterated here in canonical order), each token is split on `|`
into one OR-group, and each group member is classified. -/
def parse_constraints (s : String) : Except String (List (List Constr)) :=
  if s = "" then Except.ok []
  else
    (parse_fvalues s).mapM (fun constrStr =>
      ((constrStr.split (fun c => c = '|')).mapM parseConstrToken))

/-- One row of `model.csv` after the `.strip()` of the FEATURE/FVALUE/RANK
cells: feature name, value name, rank, raw `PREFIX`/`SUFFIX` cells (before
codepoint expansion) and the raw `CONSTRAINTS` cell. -/
structure ModelRow where
  feature : String
  fvalue : String
  rank : Int
  pre : String
  suf : String
  constraints : String
deriving DecidableEq, Repr

/-- The `model.csv` loop body of `HumanModel._init_model` for one row, acting
on the accumulated `(fvalues, diacritics)` tables: validate the feature and
value names, reject duplicate value names and ranks below 1, expand
codepoints in the prefix/suffix cells, record each nonempty prefix/suffix in
the diacritic table (a plain dict assignment — silently overwriting any
earlier value that declared the same string), and store the value record
with its parsed constraints. -/
def initModelStep (acc : List (String × FvalueInfo) × List (String × String))
    (row : ModelRow) : Except String (List (String × FvalueInfo) × List (String × String)) :=
  if !(validName row.feature) then Except.error ("Invalid feature name " ++ row.feature)
  else if !(validName row.fvalue) then Except.error ("Invalid feature value name " ++ row.fvalue)
  else if (acc.1.lookup row.fvalue).isSome then
    Except.error ("Duplicate feature value " ++ row.fvalue)
  else if row.rank < 1 then Except.error "Rank must be a value >= 1"
  else
    let pre := replace_codepoints row.pre
    let suf := replace_codepoints row.suf
    let dias1 := if pre ≠ "" then dictInsert acc.2 pre row.fvalue else acc.2
    let dias2 := if suf ≠ "" then dictInsert dias1 suf row.fvalue else dias1
    match parse_constraints row.constraints with
    | Except.error e => Except.error e
    | Except.ok constrs =>
      Except.ok (acc.1 ++ [(row.fvalue, ⟨row.feature, row.rank.toNat, pre, suf, constrs⟩)], dias2)

/-- The feature-table phase of `HumanModel._init_model`: fold the row loop,
then check that every value referenced by a constraint is itself defined
(this can only be done after the whole table is loaded).  The sound-inventory
phase (`_init_sounds`) is a separate load step, not needed by the claims
about this phase; it is represented by the empty inventory here. -/
def initModelRows (rows : List ModelRow) : Except String PhModel :=
  match rows.foldlM initModelStep ([], []) with
  | Except.error e => Except.error e
  | Except.ok (fvs, dias) =>
    let allConstr := (fvs.map (fun p => p.2.constraints)).flatten.flatten.map (fun c => c.fvalue)
    if allConstr.all (fun t => (fvs.lookup t).isSome) then
      Except.ok ⟨fvs, [], [], dias⟩
    else Except.error "Constraints have undefined fvalues"

/-! ### a concrete model for witnesses and counterexamples

A small IPA-like model in the spirit of the library's `mipa`: a `type`
feature with the sound class `C` (a partial sound), a `phonation` feature
(`voiced` constrained to co-occur with `consonant`), an `aspiration` feature
with a suffix diacritic, and a `misc` value `weird` whose constraint
expression has two groups. -/
def mA : PhModel :=
  { fvalues :=
      [ ("consonant", ⟨"type", 1, "", "", []⟩),
        ("voiceless", ⟨"phonation", 2, "", "", []⟩),
        ("voiced", ⟨"phonation", 2, "", "", [[⟨ConstrType.presence, "consonant"⟩]]⟩),
        ("aspirated", ⟨"aspiration", 3, "", "ʰ", []⟩),
        ("weird", ⟨"misc", 4, "", "",
          [[⟨ConstrType.presence, "aspirated"⟩], [⟨ConstrType.presence, "voiceless"⟩]]⟩) ],
    graphemes :=
      [ ("C", ["consonant"]),
        ("p", ["consonant", "voiceless"]),
        ("b", ["consonant", "voiced"]) ],
    sndClasses := ["C"],
    diacritics := [("ʰ", "aspirated")] }

/-! ## General lemmas -/

theorem insertSorted_perm (x : String) (l : List String) :
    (insertSorted x l).Perm (x :: l) := by
  induction l with
  | nil => simp [insertSorted]
  | cons y ys ih =>
    unfold insertSorted
    split
    · exact List.Perm.refl _
    · exact ((ih.cons y).trans (List.Perm.swap x y ys)).symm.symm

theorem sortStrings_perm (l : List String) : (sortStrings l).Perm l := by
  induction l with
  | nil => simp [sortStrings]
  | cons x xs ih =>
    unfold sortStrings
    exact (insertSorted_perm x (sortStrings xs)).trans (by exact (ih.cons x))

theorem canon_perm (l : List String) : (canon l).Perm l.dedup :=
  sortStrings_perm l.dedup

theorem mem_canon {a : String} {l : List String} : a ∈ canon l ↔ a ∈ l := by
  rw [(canon_perm l).mem_iff, List.mem_dedup]

theorem canon_nodup (l : List String) : (canon l).Nodup :=
  (canon_perm l).nodup_iff.mpr l.nodup_dedup

theorem canon_perm_self {l : List String} (h : l.Nodup) : (canon l).Perm l := by
  have := canon_perm l
  rwa [List.Nodup.dedup h] at this

theorem contains_iff_mem {a : String} {l : List String} :
    l.contains a = true ↔ a ∈ l := by
  simp [List.contains_iff_exists_mem_beq, beq_iff_eq]

theorem setEqB_true_iff {a b : List String} :
    setEqB a b = true ↔ ∀ x, x ∈ a ↔ x ∈ b := by
  unfold setEqB
  simp only [Bool.and_eq_true, List.all_eq_true, contains_iff_mem]
  constructor
  · intro h x
    exact ⟨fun hx => h.1 x hx, fun hx => h.2 x hx⟩
  · intro h
    exact ⟨fun x hx => (h x).mp hx, fun x hx => (h x).mpr hx⟩

theorem setEqB_symm {a b : List String} : setEqB a b = setEqB b a := by
  unfold setEqB
  exact Bool.and_comm _ _

theorem setEqB_canon (l : List String) : setEqB l (canon l) = true := by
  rw [setEqB_true_iff]
  intro x
  exact mem_canon.symm

theorem lookup_of_mem_of_keysNodup {l : List (String × α)} {k : String} {v : α}
    (hmem : (k, v) ∈ l) (hnd : (l.map Prod.fst).Nodup) : l.lookup k = some v := by
  induction l with
  | nil => cases hmem
  | cons p ps ih =>
    rcases List.mem_cons.mp hmem with h | h
    · subst h
      simp [List.lookup]
    · have hk : p.1 ≠ k := by
        intro he
        have : k ∈ ps.map Prod.fst := List.mem_map.mpr ⟨(k, v), h, rfl⟩
        rw [List.map_cons, List.nodup_cons, he] at hnd
        exact hnd.1 this
      have hbeq : (k == p.1) = false := by
        simp [beq_iff_eq]
        exact fun he => hk he.symm
      simp [List.lookup, hbeq]
      exact ih h (by rw [List.map_cons, List.nodup_cons] at hnd; exact hnd.2)

theorem find?_eq_some_of_unique {p : α → Bool} {l : List α} {a : α}
    (ha : a ∈ l) (hp : p a = true) (huniq : ∀ b ∈ l, p b = true → b = a) :
    l.find? p = some a := by
  induction l with
  | nil => cases ha
  | cons x xs ih =>
    by_cases hx : p x = true
    · have : x = a := huniq x (List.mem_cons_self x xs) hx
      subst this
      simp [List.find?, hx]
    · have hxa : a ≠ x := fun he => hx (he ▸ hp)
      have ha2 : a ∈ xs := by
        rcases List.mem_cons.mp ha with h | h
        · exact absurd h.symm (fun he => hxa he.symm)
        · exact h
      rw [List.find?]
      rw [Bool.eq_false_iff.mpr hx]
      exact ih ha2 (fun b hb hpb => huniq b (List.mem_cons_of_mem _ hb) hpb)

/-! ## Lemmas about the constraint evaluator -/

theorem fail_constraints_eq_nil_iff (m : PhModel) (s : List String) :
    fail_constraints m s = [] ↔
      ∀ fv ∈ s, ∀ g ∈ constraintsOf m fv, groupSatisfied s g = true := by
  unfold fail_constraints
  rw [List.flatMap_eq_nil_iff]
  constructor
  · intro h fv hfv g hg
    have := List.filterMap_eq_nil_iff.mp (h fv hfv) g hg
    by_contra hns
    rw [if_neg hns] at this
    cases this
  · intro h fv hfv
    apply List.filterMap_eq_nil_iff.mpr
    intro g hg
    rw [if_pos (h fv hfv g hg)]

theorem count_flatMap_zero {f : String → List String} {l : List String} {a : String}
    (h : ∀ x ∈ l, (f x).count a = 0) : (l.flatMap f).count a = 0 := by
  induction l with
  | nil => simp
  | cons x xs ih =>
    rw [List.flatMap_cons, List.count_append, h x (List.mem_cons_self x xs),
      ih (fun y hy => h y (List.mem_cons_of_mem _ hy))]

theorem count_flatMap_of_unique {f : String → List String} {l : List String} {a : String}
    (hnd : l.Nodup) (ha : a ∈ l) (h0 : ∀ x ∈ l, x ≠ a → (f x).count a = 0) :
    (l.flatMap f).count a = (f a).count a := by
  induction l with
  | nil => cases ha
  | cons x xs ih =>
    rw [List.flatMap_cons, List.count_append]
    rcases List.mem_cons.mp ha with h | h
    · have hz : (xs.flatMap f).count a = 0 := by
        apply count_flatMap_zero
        intro y hy
        have hne : y ≠ a := by
          intro he
          subst he
          subst h
          exact (List.nodup_cons.mp hnd).1 hy
        exact h0 y (List.mem_cons_of_mem _ hy) hne
      rw [hz, h, Nat.add_zero]
    · have hx : x ≠ a := by
        rintro rfl
        exact (List.nodup_cons.mp hnd).1 h
      rw [h0 x (List.mem_cons_self x xs) hx, Nat.zero_add]
      exact ih (List.nodup_cons.mp hnd).2 h
        (fun y hy hne => h0 y (List.mem_cons_of_mem _ hy) hne)

theorem count_filterMap_if_self {c : List Constr → Bool} {l : List (List Constr)}
    {x : String} :
    ((l.filterMap (fun g => if c g then none else some x)).count x)
      = l.countP (fun g => !(c g)) := by
  induction l with
  | nil => simp
  | cons g gs ih =>
    by_cases hg : c g = true
    · simp [List.filterMap_cons, hg, List.countP_cons, ih]
    · have hg2 : c g = false := by
        cases hcg : c g
        · rfl
        · exact absurd hcg hg
      simp [List.filterMap_cons, hg2, List.countP_cons, List.count_cons, ih]

theorem count_filterMap_if_other {c : List Constr → Bool} {l : List (List Constr)}
    {x a : String} (hne : x ≠ a) :
    ((l.filterMap (fun g => if c g then none else some x)).count a) = 0 := by
  rw [List.count_eq_zero]
  intro hmem
  rcases List.mem_filterMap.mp hmem with ⟨g, _, hg⟩
  by_cases hc : c g = true
  · rw [if_pos hc] at hg
    cases hg
  · rw [if_neg hc] at hg
    exact hne (Option.some.inj hg)

theorem contains_congr {l1 l2 : List String} (h : ∀ x, x ∈ l1 ↔ x ∈ l2)
    (a : String) : l1.contains a = l2.contains a := by
  by_cases hm : a ∈ l1
  · rw [contains_iff_mem.mpr hm, contains_iff_mem.mpr ((h a).mp hm)]
  · have hm2 : a ∉ l2 := fun hx => hm ((h a).mpr hx)
    have e1 : l1.contains a = false := by
      cases hc : l1.contains a
      · rfl
      · exact absurd (contains_iff_mem.mp hc) hm
    have e2 : l2.contains a = false := by
      cases hc : l2.contains a
      · rfl
      · exact absurd (contains_iff_mem.mp hc) hm2
    rw [e1, e2]

theorem groupSatisfied_congr {l1 l2 : List String} (h : ∀ x, x ∈ l1 ↔ x ∈ l2)
    (g : List Constr) : groupSatisfied l1 g = groupSatisfied l2 g := by
  unfold groupSatisfied
  induction g with
  | nil => rfl
  | cons cstr rest ih =>
    rw [List.any_cons, List.any_cons, ih]
    have hhead : (match cstr.ctype with
        | ConstrType.presence => l1.contains cstr.fvalue
        | ConstrType.absence => !(l1.contains cstr.fvalue)) =
        (match cstr.ctype with
        | ConstrType.presence => l2.contains cstr.fvalue
        | ConstrType.absence => !(l2.contains cstr.fvalue)) := by
      cases cstr.ctype
      · exact contains_congr h _
      · rw [contains_congr h]
    rw [hhead]

theorem fail_constraints_nil_congr (m : PhModel) {l1 l2 : List String}
    (h : ∀ x, x ∈ l1 ↔ x ∈ l2) :
    (fail_constraints m l1 = [] ↔ fail_constraints m l2 = []) := by
  rw [fail_constraints_eq_nil_iff, fail_constraints_eq_nil_iff]
  constructor
  · intro H fv hfv g hg
    rw [← groupSatisfied_congr h]
    exact H fv ((h fv).mpr hfv) g hg
  · intro H fv hfv g hg
    rw [groupSatisfied_congr h]
    exact H fv ((h fv).mp hfv) g hg

theorem fail_constraints_canon_nil (m : PhModel) (l : List String) :
    (fail_constraints m (canon l) = [] ↔ fail_constraints m l = []) :=
  fail_constraints_nil_congr m (fun _ => mem_canon)

theorem set_fvalue_eq_chars {m : PhModel} {s : List String} {v : String}
    {c : Char} {rest : List Char} (hv : v.data = c :: rest) (check : Bool) :
    set_fvalue m s v check = set_fvalue_chars m s c rest v check := by
  unfold set_fvalue
  rw [hv]

theorem set_fvalue_chars_core_error {m : PhModel} {s : List String} {v : String}
    {c : Char} {rest : List Char} {e : String} (check : Bool)
    (hfp1 : ¬(c ≠ '+' ∧ c ≠ '-' ∧ s.contains v = true))
    (hfp2 : ¬(c = '+' ∧ s.contains (String.mk rest) = true))
    (hcomp : set_fvalue_core m s c rest v = Except.error e) :
    set_fvalue_chars m s c rest v check = Except.error e := by
  unfold set_fvalue_chars
  rw [if_neg hfp1, if_neg hfp2, hcomp]

theorem set_fvalue_chars_core_ok {m : PhModel} {s : List String} {v : String}
    {c : Char} {rest : List Char} {nfv : List String} {prev : Option String} (check : Bool)
    (hfp1 : ¬(c ≠ '+' ∧ c ≠ '-' ∧ s.contains v = true))
    (hfp2 : ¬(c = '+' ∧ s.contains (String.mk rest) = true))
    (hcomp : set_fvalue_core m s c rest v = Except.ok (nfv, prev)) :
    set_fvalue_chars m s c rest v check =
      if check && !(fail_constraints m nfv).isEmpty then
        Except.error ("FValue " ++ v ++ " breaks a constraint")
      else Except.ok (canon nfv, prev) := by
  unfold set_fvalue_chars
  rw [if_neg hfp1, if_neg hfp2, hcomp]

/-! ## Claim theorems -/

/-- Claim C2: `fail_constraints` returns an empty list exactly when, for every
value present in the feature set, every constraint group attached to that
value has at least one satisfied entry; in particular, for any model, the
check applied to the empty feature set returns an empty list.  The hypothesis
restricts the statement to feature sets whose values are defined in the model
(on an undefined value the source raises `KeyError` instead of returning). -/
theorem claim_fail_constraints_empty_iff (m : PhModel) (s : List String)
    (hdef : ∀ fv ∈ s, fvDefinedB m fv = true) :
    (fail_constraints m s = [] ↔
      ∀ fv ∈ s, ∀ g ∈ constraintsOf m fv, groupSatisfied s g = true)
    ∧ fail_constraints m ([] : List String) = [] := by
  refine ⟨fail_constraints_eq_nil_iff m s, ?_⟩
  rfl

/-- Witness for C2 at the concrete model `mA` and the valid feature set for
the sound `b`. -/
theorem claim_fail_constraints_empty_iff_witness :
    ((fail_constraints mA ["consonant", "voiced"] = [] ↔
      ∀ fv ∈ ["consonant", "voiced"], ∀ g ∈ constraintsOf mA fv,
        groupSatisfied ["consonant", "voiced"] g = true)
    ∧ fail_constraints mA ([] : List String) = []) :=
  claim_fail_constraints_empty_iff mA ["consonant", "voiced"] (by decide)

/-- Claim C9: `fail_constraints` appends the offending value once per
unsatisfied constraint group — a value whose constraint expression has `k`
unsatisfied groups occurs exactly `k` times in the returned list (so the
result is not guaranteed duplicate-free).  The feature set is duplicate-free
(it stands for a frozenset) and its values are defined in the model. -/
theorem claim_fail_constraints_multiplicity (m : PhModel) (s : List String)
    (fv : String) (hnd : s.Nodup) (hfv : fv ∈ s)
    (hdef : ∀ v ∈ s, fvDefinedB m v = true) :
    (fail_constraints m s).count fv
      = (constraintsOf m fv).countP (fun g => !(groupSatisfied s g)) := by
  unfold fail_constraints
  rw [count_flatMap_of_unique hnd hfv]
  · exact count_filterMap_if_self
  · intro x _ hx
    exact count_filterMap_if_other hx

/-- Witness for C9: in `mA` the value `weird` has two unsatisfied groups over
`["consonant", "voiced", "weird"]` and occurs twice in the result. -/
theorem claim_fail_constraints_multiplicity_witness :
    ((fail_constraints mA ["consonant", "voiced", "weird"]).count "weird"
      = (constraintsOf mA "weird").countP
          (fun g => !(groupSatisfied ["consonant", "voiced", "weird"] g)))
    ∧ (fail_constraints mA ["consonant", "voiced", "weird"]).count "weird" = 2 :=
  ⟨claim_fail_constraints_multiplicity mA ["consonant", "voiced", "weird"] "weird"
      (by decide) (by decide) (by decide),
   by decide⟩

/-- Claim C3 (evaluation at the failing input): the source casts the bracket
tokens through a frozenset before listing them, so the written order of the
bracket tokens is lost: `"p[voiced,voiceless]"` and `"p[voiceless,voiced]"`
decode to the same feature set, although the two single-token decodings show
that `voiced` and `voiceless` genuinely conflict (same feature), so an
order-preserving decoder would have to give the two bracketed inputs
different results (the last-written token would win). -/
theorem claim_bracket_tokens_set_collapse :
    parse_grapheme mA "p[voiced,voiceless]" = parse_grapheme mA "p[voiceless,voiced]"
    ∧ parse_grapheme mA "p[voiced]" ≠ parse_grapheme mA "p[voiceless]" := by
  decide

/-- Claim C4 counterexample: with the value `voiced` already present,
`set_fvalue` with the check enabled takes the already-present fast path and
returns without error, although `fail_constraints` reports `voiced` as
offending on exactly the returned feature set. -/
theorem claim_enforce_constraints_counterexample :
    set_fvalue mA ["voiced"] "voiced" true = Except.ok (["voiced"], some "voiced")
    ∧ fail_constraints mA ["voiced"] ≠ [] := by
  decide

/-- Claim C5 (evaluation at the failing input): the target equals the feature
set of the *partial* sound `C`, partiality is excluded (`classes = false`),
and yet `closest_grapheme` returns the raw exact match `C` — the opposite of
the claimed (and documented) behavior that the raw match is preferred only
when partiality is allowed. -/
theorem claim_partial_exact_match_eval :
    closest_grapheme mA ["consonant"] false = (some "C", some ["consonant"])
    ∧ "C" ∈ mA.sndClasses := by
  decide

/-- Claim C7 counterexample: for the explicit-presence value `"+voiced"` (not
in removal form), the second application returns the feature set unchanged
but reports the *bare* value `"voiced"`, not `"+voiced"` itself, as the
replaced value. -/
theorem claim_set_fvalue_idempotent_counterexample :
    set_fvalue mA [] "+voiced" false = Except.ok (["voiced"], none)
    ∧ set_fvalue mA ["voiced"] "+voiced" false = Except.ok (["voiced"], some "voiced")
    ∧ ("voiced" : String) ≠ "+voiced" := by
  decide

/-- Claim C4 (amended): when the already-present fast path does not apply,
`set_fvalue` with the constraint check enabled runs the constraint evaluator
on the resulting feature set and fails exactly when it reports an offending
value; with the fast path excluded the checked run agrees with the unchecked
run otherwise. -/
theorem claim_enforce_constraints_amended (m : PhModel) (s : List String)
    (v : String) (c : Char) (rest : List Char) (ns : List String) (p : Option String)
    (hv : v.data = c :: rest)
    (hfp1 : ¬(c ≠ '+' ∧ c ≠ '-' ∧ s.contains v = true))
    (hfp2 : ¬(c = '+' ∧ s.contains (String.mk rest) = true))
    (h0 : set_fvalue m s v false = Except.ok (ns, p)) :
    (fail_constraints m ns ≠ [] → ∃ e, set_fvalue m s v true = Except.error e)
    ∧ (fail_constraints m ns = [] → set_fvalue m s v true = Except.ok (ns, p)) := by
  rw [set_fvalue_eq_chars hv] at h0 ⊢
  cases hcomp : set_fvalue_core m s c rest v with
  | error e =>
    rw [set_fvalue_chars_core_error false hfp1 hfp2 hcomp] at h0
    cases h0
  | ok npr =>
    obtain ⟨nfv, prev⟩ := npr
    rw [set_fvalue_chars_core_ok false hfp1 hfp2 hcomp] at h0
    rw [set_fvalue_chars_core_ok true hfp1 hfp2 hcomp]
    rw [Bool.false_and] at h0
    rw [if_neg (by exact Bool.false_ne_true)] at h0
    obtain ⟨hns, hp⟩ : canon nfv = ns ∧ prev = p := by
      have hpr := Except.ok.inj h0
      exact ⟨congrArg Prod.fst hpr, congrArg Prod.snd hpr⟩
    rw [Bool.true_and]
    by_cases hfc : fail_constraints m nfv = []
    · constructor
      · intro hne
        exact absurd (by rw [← hns]; exact (fail_constraints_canon_nil m nfv).mpr hfc) hne
      · intro _
        simp [hfc, hns, hp]
    · have hemp : (fail_constraints m nfv).isEmpty = false := by
        cases he : (fail_constraints m nfv).isEmpty
        · rfl
        · exact absurd (List.isEmpty_iff.mp he) hfc
      constructor
      · intro _
        refine ⟨"FValue " ++ v ++ " breaks a constraint", ?_⟩
        simp [hemp]
      · intro hnil
        rw [← hns] at hnil
        exact absurd ((fail_constraints_canon_nil m nfv).mp hnil) hfc

/-- Witness for the amended C4: setting `voiced` on the empty set with the
check enabled fails, because `voiced` requires `consonant`. -/
theorem claim_enforce_constraints_amended_witness :
    ∃ e, set_fvalue mA ([] : List String) "voiced" true = Except.error e :=
  (claim_enforce_constraints_amended mA [] "voiced" 'v' ['o', 'i', 'c', 'e', 'd']
    ["voiced"] none (by decide) (by decide) (by decide) (by decide)).1 (by decide)

/-- Claim C7 (amended): `set_fvalue` is idempotent for every value `v` not
written in removal form: applying it twice yields the same feature set both
times, and the second application returns its input unchanged; the replaced
value reported by the second application is `v` itself for a plain value,
and `v` without its leading `+` when `v` is written in explicit-presence
form. -/
theorem claim_set_fvalue_idempotent_amended (m : PhModel) (s : List String)
    (v : String) (c : Char) (rest : List Char) (check : Bool)
    (s2 : List String) (p : Option String)
    (hv : v.data = c :: rest) (hm : c ≠ '-')
    (h1 : set_fvalue m s v check = Except.ok (s2, p)) :
    set_fvalue m s2 v check
      = Except.ok (s2, some (if c = '+' then String.mk rest else v)) := by
  rw [set_fvalue_eq_chars hv] at h1 ⊢
  have hbare : (if c = '+' then String.mk rest else v) ∈ s2 := by
    by_cases hfp1 : (c ≠ '+' ∧ c ≠ '-' ∧ s.contains v = true)
    · unfold set_fvalue_chars at h1
      rw [if_pos hfp1] at h1
      have hpr := Except.ok.inj h1
      have hs2 : s = s2 := congrArg Prod.fst hpr
      rw [if_neg hfp1.1]
      exact hs2 ▸ contains_iff_mem.mp hfp1.2.2
    · by_cases hfp2 : (c = '+' ∧ s.contains (String.mk rest) = true)
      · unfold set_fvalue_chars at h1
        rw [if_neg hfp1, if_pos hfp2] at h1
        have hpr := Except.ok.inj h1
        have hs2 : s = s2 := congrArg Prod.fst hpr
        rw [if_pos hfp2.1]
        exact hs2 ▸ contains_iff_mem.mp hfp2.2
      · cases hcomp : set_fvalue_core m s c rest v with
        | error e =>
          rw [set_fvalue_chars_core_error check hfp1 hfp2 hcomp] at h1
          cases h1
        | ok npr =>
          obtain ⟨nfv, prev⟩ := npr
          rw [set_fvalue_chars_core_ok check hfp1 hfp2 hcomp] at h1
          by_cases hchk : (check && !(fail_constraints m nfv).isEmpty) = true
          · rw [if_pos hchk] at h1
            cases h1
          · rw [if_neg hchk] at h1
            have hpr := Except.ok.inj h1
            have hs2 : canon nfv = s2 := congrArg Prod.fst hpr
            have hmem : (if c = '+' then String.mk rest else v) ∈ nfv := by
              unfold set_fvalue_core at hcomp
              rw [if_neg hm] at hcomp
              split at hcomp
              · cases hcomp
              · split at hcomp
                · injection hcomp with h2
                  injection h2 with h3 h4
                  rw [← h3]
                  exact List.mem_cons_self _ _
                · injection hcomp with h2
                  injection h2 with h3 h4
                  rw [← h3]
                  exact List.mem_cons_self _ _
            rw [← hs2]
            exact mem_canon.mpr hmem
  unfold set_fvalue_chars
  by_cases hplus : c = '+'
  · rw [if_pos hplus] at hbare
    rw [if_neg (fun h => h.1 hplus)]
    rw [if_pos ⟨hplus, contains_iff_mem.mpr hbare⟩]
    rw [if_pos hplus]
  · rw [if_neg hplus] at hbare
    rw [if_pos ⟨hplus, hm, contains_iff_mem.mpr hbare⟩]
    rw [if_neg hplus]

/-- Witness for the amended C7: setting plain `voiceless` twice on the
feature set of `b` replaces `voiced`, and the second application returns the
set unchanged reporting `voiceless` itself. -/
theorem claim_set_fvalue_idempotent_amended_witness :
    set_fvalue mA ["consonant", "voiceless"] "voiceless" false
      = Except.ok (["consonant", "voiceless"],
          some (if 'v' = '+' then String.mk ['o', 'i', 'c', 'e', 'l', 'e', 's', 's']
            else "voiceless")) :=
  claim_set_fvalue_idempotent_amended mA ["consonant", "voiced"] "voiceless" 'v'
    ['o', 'i', 'c', 'e', 'l', 'e', 's', 's'] false ["consonant", "voiceless"] (some "voiced")
    (by decide) (by decide) (by decide)

theorem setEqB_trans_canon {b fs : List String} (h : setEqB b (canon fs) = true) :
    setEqB b fs = true := by
  have h1 := setEqB_true_iff.mp h
  exact setEqB_true_iff.mpr (fun x => (h1 x).trans mem_canon)

theorem fvalues2grapheme_canon_eq {m : PhModel} {g : String} {fs : List String}
    (hmem : (g, fs) ∈ m.graphemes)
    (hpair : m.graphemes.Pairwise (fun a b => setEqB a.2 b.2 = false)) :
    fvalues2grapheme m (canon fs) = some g := by
  have hsymm : ∀ {a b : String × List String},
      setEqB a.2 b.2 = false → setEqB b.2 a.2 = false := by
    intro a b hab
    rw [setEqB_symm]
    exact hab
  have hfind : m.graphemes.find? (fun p => setEqB p.2 (canon fs)) = some (g, fs) := by
    apply find?_eq_some_of_unique hmem (setEqB_canon fs)
    intro b hb hpb
    by_contra hne
    have h3 : setEqB b.2 fs = true := setEqB_trans_canon hpb
    have hfalse : setEqB b.2 fs = false := by
      have := List.Pairwise.forall (fun a b hab => hsymm hab) hpair hb hmem hne
      exact this
    rw [h3] at hfalse
    cases hfalse
  unfold fvalues2grapheme
  rw [hfind]
  rfl

/-- Claim C1: for every canonical grapheme `g` of the model, encoding the
feature set obtained by decoding `g` yields `g` itself, via the exact-match
fast paths of both operations.  The hypotheses are the model invariants that
the loader establishes: grapheme keys are unique, no two graphemes share a
feature-set description, and every stored grapheme is normalization-fixed
(the loader stores `normalize(...)` of the raw grapheme and `normalize` is
idempotent). -/
theorem claim_roundtrip_canonical_grapheme (nfd : String → String) (m : PhModel)
    (g : String) (fs : List String)
    (hmem : (g, fs) ∈ m.graphemes)
    (hkeys : (m.graphemes.map Prod.fst).Nodup)
    (hpair : m.graphemes.Pairwise (fun a b => setEqB a.2 b.2 = false))
    (hnorm : normalize nfd g = g) :
    parse_grapheme m g = Except.ok (fs, m.sndClasses.contains g)
    ∧ build_grapheme nfd m fs = Except.ok g := by
  have hlk : m.graphemes.lookup g = some fs := lookup_of_mem_of_keysNodup hmem hkeys
  constructor
  · unfold parse_grapheme
    rw [hlk]
  · unfold build_grapheme
    rw [fvalues2grapheme_canon_eq hmem hpair]
    exact congrArg Except.ok hnorm

/-- Witness for C1 at `mA` and the canonical grapheme `p` (whose characters
have no canonical decomposition, so `nfd = id` is the true NFD there). -/
theorem claim_roundtrip_canonical_grapheme_witness :
    parse_grapheme mA "p"
      = Except.ok (["consonant", "voiceless"], mA.sndClasses.contains "p")
    ∧ build_grapheme id mA ["consonant", "voiceless"] = Except.ok "p" :=
  claim_roundtrip_canonical_grapheme id mA "p" ["consonant", "voiceless"]
    (by decide) (by decide) (by decide) (by decide)

theorem contains_false_iff {a : String} {l : List String} :
    l.contains a = false ↔ a ∉ l := by
  constructor
  · intro h hm
    rw [contains_iff_mem.mpr hm] at h
    cases h
  · intro hm
    cases hc : l.contains a
    · rfl
    · exact absurd (contains_iff_mem.mp hc) hm

theorem invRank_nonneg (m : PhModel) (fv : String) : 0 ≤ invRank m fv := by
  unfold invRank
  cases lookupFv m fv with
  | none => exact le_refl 0
  | some info => exact div_nonneg zero_le_one (Nat.cast_nonneg _)

theorem invRank_pos {m : PhModel} {fv : String} (h : fvDefinedRankedB m fv = true) :
    0 < invRank m fv := by
  unfold fvDefinedRankedB at h
  unfold invRank
  cases hlk : lookupFv m fv with
  | none =>
    rw [hlk] at h
    cases h
  | some info =>
    rw [hlk] at h
    have hr : 1 ≤ info.rank := of_decide_eq_true h
    have hq : (0 : ℚ) < (info.rank : ℚ) := by
      exact_mod_cast Nat.lt_of_lt_of_le Nat.zero_lt_one hr
    exact div_pos zero_lt_one hq

theorem map_invRank_sum_nonneg (m : PhModel) (l : List String) :
    0 ≤ (l.map (invRank m)).sum := by
  apply List.sum_nonneg
  intro x hx
  rcases List.mem_map.mp hx with ⟨y, _, rfl⟩
  exact invRank_nonneg m y

/-- The score of the target against itself: the extra-value penalty list is
empty and the common part is the whole target. -/
theorem scoreOf_self (m : PhModel) (t fs : List String)
    (hiff : ∀ x, x ∈ t ↔ x ∈ fs) :
    scoreOf m t fs = (t.map (invRank m)).sum := by
  unfold scoreOf
  have h1 : t.filter (fun fv => fs.contains fv) = t :=
    List.filter_eq_self.mpr (fun x hx => contains_iff_mem.mpr ((hiff x).mp hx))
  have h2 : fs.filter (fun fv => !(t.contains fv)) = [] := by
    rw [List.filter_eq_nil_iff]
    intro a ha
    simp
    exact (hiff a).mpr ha
  rw [h1, h2]
  simp

/-- Any candidate that does not equal the target as a set scores strictly
below the target's own score (ranks at least 1 on both sides). -/
theorem scoreOf_lt_of_ne (m : PhModel) (t c : List String)
    (hdeft : ∀ x ∈ t, fvDefinedRankedB m x = true)
    (hdefc : ∀ x ∈ c, fvDefinedRankedB m x = true)
    (hne : ¬ (∀ x, x ∈ c ↔ x ∈ t)) :
    scoreOf m t c < (t.map (invRank m)).sum := by
  unfold scoreOf
  have hsplit :
      ((t.filter (fun fv => c.contains fv)).map (invRank m)).sum
        + ((t.filter (fun fv => !(c.contains fv))).map (invRank m)).sum
      = (t.map (invRank m)).sum := by
    have hperm := (List.filter_append_perm (fun fv => c.contains fv) t).map (invRank m)
    rw [← hperm.sum_eq, List.map_append, List.sum_append]
  by_cases hcsub : ∀ x ∈ c, x ∈ t
  · have hBnil : c.filter (fun fv => !(t.contains fv)) = [] := by
      rw [List.filter_eq_nil_iff]
      intro a ha
      simp
      exact hcsub a ha
    have hex : ∃ x ∈ t, x ∉ c := by
      by_contra hno
      push_neg at hno
      exact hne (fun x => ⟨fun hx => hcsub x hx, fun hx => hno x hx⟩)
    rcases hex with ⟨x, hxt, hxc⟩
    have hxmem : x ∈ t.filter (fun fv => !(c.contains fv)) := by
      rw [List.mem_filter]
      exact ⟨hxt, by rw [contains_false_iff.mpr hxc]; rfl⟩
    have hle : invRank m x ≤ ((t.filter (fun fv => !(c.contains fv))).map (invRank m)).sum := by
      apply List.single_le_sum
      · intro y hy
        rcases List.mem_map.mp hy with ⟨z, _, rfl⟩
        exact invRank_nonneg m z
      · exact List.mem_map.mpr ⟨x, hxmem, rfl⟩
    have hpos := invRank_pos (hdeft x hxt)
    rw [hBnil]
    simp only [List.map_nil, List.sum_nil, sub_zero]
    linarith
  · push_neg at hcsub
    rcases hcsub with ⟨x, hxc, hxt⟩
    have hxmem : x ∈ c.filter (fun fv => !(t.contains fv)) := by
      rw [List.mem_filter]
      exact ⟨hxc, by rw [contains_false_iff.mpr hxt]; rfl⟩
    have hle : invRank m x ≤ ((c.filter (fun fv => !(t.contains fv))).map (invRank m)).sum := by
      apply List.single_le_sum
      · intro y hy
        rcases List.mem_map.mp hy with ⟨z, _, rfl⟩
        exact invRank_nonneg m z
      · exact List.mem_map.mpr ⟨x, hxmem, rfl⟩
    have hpos := invRank_pos (hdefc x hxc)
    have hcommon := map_invRank_sum_nonneg m (t.filter (fun fv => !(c.contains fv)))
    linarith

theorem foldl_closestStep_lt {m : PhModel} {t : List String} {classes : Bool} {S : ℚ}
    (l : List (String × List String))
    (st : ℚ × Option String × Option (List String))
    (hst : st.1 < S) (h : ∀ p ∈ l, scoreOf m t p.2 < S) :
    (l.foldl (closestStep m t classes) st).1 < S := by
  induction l generalizing st with
  | nil => exact hst
  | cons p ps ih =>
    rw [List.foldl_cons]
    apply ih
    · unfold closestStep
      split
      · exact hst
      · split
        · exact h p (List.mem_cons_self p ps)
        · exact hst
    · intro q hq
      exact h q (List.mem_cons_of_mem _ hq)

theorem foldl_closestStep_const {m : PhModel} {t : List String} {classes : Bool}
    {st : ℚ × Option String × Option (List String)} (l : List (String × List String))
    (h : ∀ p ∈ l, (!classes && m.sndClasses.contains p.1) = true
      ∨ ¬(st.1 < scoreOf m t p.2)) :
    l.foldl (closestStep m t classes) st = st := by
  induction l with
  | nil => rfl
  | cons p ps ih =>
    rw [List.foldl_cons]
    have hstep : closestStep m t classes st p = st := by
      unfold closestStep
      split
      · rfl
      · rcases h p (List.mem_cons_self p ps) with hskip | hnlt
        · exact absurd hskip (by assumption)
        · rw [if_neg hnlt]
    rw [hstep]
    exact ih (fun q hq => h q (List.mem_cons_of_mem _ hq))

/-- Claim C6: for a target feature set equal to the feature set of a
canonical sound, `closest_grapheme` returns that exact sound's grapheme, and
the computed score for that winning candidate equals the sum of `1/rank` over
all of its values, with no extra-value penalty subtracted.  Hypotheses: the
inventory has pairwise distinct descriptions, all values of every stored
feature set are defined with rank at least 1, the target set is a nonempty
frozenset (duplicate-free). -/
theorem claim_exact_target_wins (m : PhModel) (g : String) (fs : List String)
    (classes : Bool)
    (hmem : (g, fs) ∈ m.graphemes)
    (hpair : m.graphemes.Pairwise (fun a b => setEqB a.2 b.2 = false))
    (hdefs : ∀ p ∈ m.graphemes, ∀ fv ∈ p.2, fvDefinedRankedB m fv = true)
    (hnd : fs.Nodup) (hne : fs ≠ []) :
    (closest_grapheme m fs classes).1 = some g
    ∧ scoreOf m (canon fs) fs = (fs.map (invRank m)).sum := by
  have hiff : ∀ x, x ∈ canon fs ↔ x ∈ fs := fun x => mem_canon
  have hS : scoreOf m (canon fs) fs = ((canon fs).map (invRank m)).sum :=
    scoreOf_self m (canon fs) fs hiff
  have hSfs : ((canon fs).map (invRank m)).sum = (fs.map (invRank m)).sum :=
    ((canon_perm_self hnd).map (invRank m)).sum_eq
  refine ⟨?_, hS.trans hSfs⟩
  have hdeffs : ∀ x ∈ fs, fvDefinedRankedB m x = true := hdefs (g, fs) hmem
  have hdeft : ∀ x ∈ canon fs, fvDefinedRankedB m x = true :=
    fun x hx => hdeffs x (mem_canon.mp hx)
  have hSpos : 0 < scoreOf m (canon fs) fs := by
    rw [hS]
    apply List.sum_pos
    · intro x hx
      rcases List.mem_map.mp hx with ⟨y, hy, rfl⟩
      exact invRank_pos (hdeft y hy)
    · intro hnil
      rcases List.exists_mem_of_ne_nil fs hne with ⟨x, hx⟩
      have : x ∈ canon fs := mem_canon.mpr hx
      rw [List.map_eq_nil_iff.mp hnil] at this
      cases this
  have hbound : ∀ p ∈ m.graphemes, setEqB p.2 fs = false →
      scoreOf m (canon fs) p.2 < scoreOf m (canon fs) fs := by
    intro p hp hfalse
    rw [hS]
    apply scoreOf_lt_of_ne m (canon fs) p.2 hdeft (hdefs p hp)
    intro hiffp
    have : setEqB p.2 fs = true :=
      setEqB_true_iff.mpr (fun x => (hiffp x).trans mem_canon)
    rw [this] at hfalse
    cases hfalse
  have hfg : fvalues2grapheme m (canon fs) = some g := fvalues2grapheme_canon_eq hmem hpair
  unfold closest_grapheme
  rw [hfg]
  show (if (classes && m.sndClasses.contains g) = true
      then closestSearch m (canon fs) classes
      else (some g, some (canon fs))).1 = some g
  by_cases hcl : (classes && m.sndClasses.contains g) = true
  · rw [if_pos hcl]
    rw [Bool.and_eq_true] at hcl
    obtain ⟨hclasses, hgclass⟩ := hcl
    obtain ⟨l1, l2, hsplit⟩ := List.append_of_mem hmem
    rw [hsplit] at hpair
    rw [List.pairwise_append] at hpair
    obtain ⟨hp1, hp2, hp12⟩ := hpair
    have hb1 : ∀ p ∈ l1, scoreOf m (canon fs) p.2 < scoreOf m (canon fs) fs := by
      intro p hp
      apply hbound p (by rw [hsplit]; exact List.mem_append_left _ hp)
      exact hp12 p hp (g, fs) (List.mem_cons_self _ _)
    have hb2 : ∀ q ∈ l2, scoreOf m (canon fs) q.2 < scoreOf m (canon fs) fs := by
      intro q hq
      apply hbound q (by
        rw [hsplit]
        exact List.mem_append_right _ (List.mem_cons_of_mem _ hq))
      have := (List.pairwise_cons.mp hp2).1 q hq
      rw [setEqB_symm]
      exact this
    unfold closestSearch searchState
    rw [hsplit, List.foldl_append, List.foldl_cons]
    have hst1 : (l1.foldl (closestStep m (canon fs) classes) (0, none, none)).1
        < scoreOf m (canon fs) fs :=
      foldl_closestStep_lt l1 (0, none, none) hSpos hb1
    have hstep : ∀ st : ℚ × Option String × Option (List String),
        st.1 < scoreOf m (canon fs) fs →
        closestStep m (canon fs) classes st (g, fs)
          = (scoreOf m (canon fs) fs, some g, some fs) := by
      intro st hstlt
      unfold closestStep
      rw [hclasses]
      rw [if_neg (by simp)]
      show (if st.1 < scoreOf m (canon fs) fs
          then (scoreOf m (canon fs) fs, some g, some fs) else st)
        = (scoreOf m (canon fs) fs, some g, some fs)
      rw [if_pos hstlt]
    rw [hstep _ hst1]
    rw [foldl_closestStep_const l2 (fun q hq => Or.inr (not_lt.mpr (le_of_lt (hb2 q hq))))]
  · rw [if_neg hcl]

/-- Witness for C6 at `mA`: the target equal to the feature set of the sound
class `C` with classes allowed (exercising the scoring loop, since the raw
match is then skipped). -/
theorem claim_exact_target_wins_witness :
    (closest_grapheme mA ["consonant"] true).1 = some "C"
    ∧ scoreOf mA (canon ["consonant"]) ["consonant"]
        = (["consonant"].map (invRank mA)).sum :=
  claim_exact_target_wins mA "C" ["consonant"] true
    (by decide) (by decide) (by decide) (by decide) (by decide)

/-- Claim C8: `closest_grapheme` keeps a candidate only when its score is
strictly greater than the running best (initialized to 0), so when the raw
exact match does not return (either there is none, or it is skipped because
`classes` is true and it is a sound class) and no candidate that survives the
class filter has a strictly positive score, the search returns
`(none, none)`. -/
theorem claim_no_positive_score_returns_none (m : PhModel) (t : List String)
    (classes : Bool)
    (hfast : ∀ g, fvalues2grapheme m (canon t) = some g →
      classes = true ∧ m.sndClasses.contains g = true)
    (hsc : ∀ p ∈ m.graphemes, (!classes && m.sndClasses.contains p.1) = false →
      scoreOf m (canon t) p.2 ≤ 0) :
    closest_grapheme m t classes = (none, none) := by
  have hloop : closestSearch m (canon t) classes = (none, none) := by
    unfold closestSearch searchState
    rw [foldl_closestStep_const m.graphemes ?hside]
    case hside =>
      intro p hp
      by_cases hskip : (!classes && m.sndClasses.contains p.1) = true
      · exact Or.inl hskip
      · have hfalse : (!classes && m.sndClasses.contains p.1) = false := by
          cases hb : (!classes && m.sndClasses.contains p.1)
          · rfl
          · exact absurd hb hskip
        exact Or.inr (not_lt.mpr (hsc p hp hfalse))
  unfold closest_grapheme
  cases hfg : fvalues2grapheme m (canon t) with
  | none => exact hloop
  | some g =>
    obtain ⟨hc, hg⟩ := hfast g hfg
    show (if (classes && m.sndClasses.contains g) = true
        then closestSearch m (canon t) classes
        else (some g, some (canon t))) = (none, none)
    rw [hc, hg]
    rw [if_pos (by rfl)]
    rw [hc] at hloop
    exact hloop

/-- The score of any candidate against the empty target is nonpositive: the
common part is empty and the extra-value penalty is a sum of nonnegative
terms. -/
theorem scoreOf_nil_le_zero (m : PhModel) (c : List String) : scoreOf m [] c ≤ 0 := by
  unfold scoreOf
  simp only [List.filter_nil, List.map_nil, List.sum_nil, zero_sub]
  have hnn := map_invRank_sum_nonneg m
    (c.filter (fun fv => !(([] : List String).contains fv)))
  linarith

/-- Witness for C8 at `mA` with the empty target and classes excluded: no
candidate shares a value with the target, so every eligible score is
nonpositive and the search returns `(none, none)`. -/
theorem claim_no_positive_score_returns_none_witness :
    closest_grapheme mA ([] : List String) false = (none, none) :=
  claim_no_positive_score_returns_none mA [] false
    (fun g h => by
      rw [show fvalues2grapheme mA (canon []) = none from by decide] at h
      cases h)
    (fun p hp hel => by
      rw [show canon ([] : List String) = [] from rfl]
      exact scoreOf_nil_le_zero mA p.2)

/-- Claim C10: model construction does not reject two values that declare
the same nonempty prefix diacritic string — no error is raised, and the
diacritic table maps the shared string to the value from the last-loaded row,
silently overwriting the earlier mapping.  (Stated for two otherwise valid
rows with empty suffix and constraint cells; the suffix case is the same
assignment one line later in the source.) -/
theorem claim_duplicate_diacritic_overwrite (r1 r2 : ModelRow)
    (hf1 : validName r1.feature = true) (hv1 : validName r1.fvalue = true)
    (hf2 : validName r2.feature = true) (hv2 : validName r2.fvalue = true)
    (hneq : r1.fvalue ≠ r2.fvalue)
    (hr1 : 1 ≤ r1.rank) (hr2 : 1 ≤ r2.rank)
    (hc1 : r1.constraints = "") (hc2 : r2.constraints = "")
    (hs1 : replace_codepoints r1.suf = "") (hs2 : replace_codepoints r2.suf = "")
    (hp : replace_codepoints r1.pre = replace_codepoints r2.pre)
    (hpne : replace_codepoints r2.pre ≠ "") :
    ∃ m : PhModel, initModelRows [r1, r2] = Except.ok m
      ∧ m.diacritics.lookup (replace_codepoints r2.pre) = some r2.fvalue := by
  have hnr1 : ¬(r1.rank < 1) := by omega
  have hnr2 : ¬(r2.rank < 1) := by omega
  have hbneq : (r2.fvalue == r1.fvalue) = false := by
    rw [beq_eq_false_iff_ne]
    exact fun he => hneq he.symm
  have hstep1 : initModelStep ([], []) r1
      = Except.ok
          ([(r1.fvalue,
              ⟨r1.feature, r1.rank.toNat, replace_codepoints r1.pre,
                replace_codepoints r1.suf, []⟩)],
            [(replace_codepoints r2.pre, r1.fvalue)]) := by
    unfold initModelStep
    rw [hf1, hv1]
    simp only [Bool.not_true, Bool.false_eq_true, if_false]
    rw [if_neg (by simp), if_neg hnr1]
    rw [if_pos (show replace_codepoints r1.pre ≠ "" by rw [hp]; exact hpne)]
    rw [if_neg (show ¬(replace_codepoints r1.suf ≠ "") by rw [hs1]; exact fun h => h rfl)]
    rw [hc1]
    unfold parse_constraints
    rw [if_pos rfl]
    unfold dictInsert
    simp [hp]
  have hstep2 : initModelStep
      ([(r1.fvalue,
          ⟨r1.feature, r1.rank.toNat, replace_codepoints r1.pre,
            replace_codepoints r1.suf, []⟩)],
        [(replace_codepoints r2.pre, r1.fvalue)]) r2
      = Except.ok
          ([(r1.fvalue,
              ⟨r1.feature, r1.rank.toNat, replace_codepoints r1.pre,
                replace_codepoints r1.suf, []⟩),
            (r2.fvalue,
              ⟨r2.feature, r2.rank.toNat, replace_codepoints r2.pre,
                replace_codepoints r2.suf, []⟩)],
            [(replace_codepoints r2.pre, r2.fvalue)]) := by
    unfold initModelStep
    rw [hf2, hv2]
    simp only [Bool.not_true, Bool.false_eq_true, if_false]
    rw [if_neg (by simp [List.lookup, hbneq])]
    rw [if_neg hnr2]
    rw [if_pos hpne]
    rw [if_neg (show ¬(replace_codepoints r2.suf ≠ "") by rw [hs2]; exact fun h => h rfl)]
    rw [hc2]
    unfold parse_constraints
    rw [if_pos rfl]
    unfold dictInsert
    simp
  refine ⟨⟨[(r1.fvalue,
        ⟨r1.feature, r1.rank.toNat, replace_codepoints r1.pre,
          replace_codepoints r1.suf, []⟩),
      (r2.fvalue,
        ⟨r2.feature, r2.rank.toNat, replace_codepoints r2.pre,
          replace_codepoints r2.suf, []⟩)],
      [], [], [(replace_codepoints r2.pre, r2.fvalue)]⟩, ?_, ?_⟩
  · unfold initModelRows
    rw [show List.foldlM initModelStep ([], []) [r1, r2]
          = Except.ok
              ([(r1.fvalue,
                  ⟨r1.feature, r1.rank.toNat, replace_codepoints r1.pre,
                    replace_codepoints r1.suf, []⟩),
                (r2.fvalue,
                  ⟨r2.feature, r2.rank.toNat, replace_codepoints r2.pre,
                    replace_codepoints r2.suf, []⟩)],
                [(replace_codepoints r2.pre, r2.fvalue)])
        from by
          simp only [List.foldlM, bind, Except.bind, hstep1, hstep2]
          rfl]
    simp
  · simp [List.lookup]

/-- Witness for C10: two rows sharing the prefix `^` load without error and
the diacritic table maps `^` to the second row's value. -/
theorem claim_duplicate_diacritic_overwrite_witness :
    ∃ m : PhModel,
      initModelRows
          [⟨"articulation", "palatal", 1, "^", "", ""⟩,
            ⟨"articulation", "velar", 1, "^", "", ""⟩] = Except.ok m
        ∧ m.diacritics.lookup "^" = some "velar" := by
  rcases claim_duplicate_diacritic_overwrite
      ⟨"articulation", "palatal", 1, "^", "", ""⟩
      ⟨"articulation", "velar", 1, "^", "", ""⟩
      (by decide) (by decide) (by decide) (by decide) (by decide)
      (by decide) (by decide) rfl rfl (by decide) (by decide) rfl (by decide)
    with ⟨m, h1, h2⟩
  exact ⟨m, h1, h2⟩

end Maniphono
